import Mathlib

/-!
Verification development for the MCTS implementation in `src/mcts_vanilla.py`.

The search tree is embedded as an arena (a list of nodes addressed by stable
indices), as suggested by the design notes of the specification: each node
stores its parent index, the action that produced it, an insertion-ordered
mapping from actions to child indices (a Python `dict`), the untried actions,
and the `visits`/`wins` counters.

Numeric scores (`math.sqrt`, `math.log`, true division) are modelled exactly:
a score is an unnormalised fraction of integers, and the transcendental
functions `sqrt` and `log` are abstract parameters `sq lg : Score → Score` of
every definition that uses them.  All arithmetic on scores is exact integer
arithmetic, so every definition evaluates on concrete inputs.  A fraction with
denominator `0` corresponds to a Python `ZeroDivisionError`.

Python-specific behaviour is modelled explicitly:
* `max(xs, key=k)` keeps the first maximal element (`pyMaxBy`);
* `random.choice` is fed an explicit pick (`pyChoice`), and `think` receives a
  stream of picks;
* an `int` used in boolean position is truthy iff nonzero (`pyTruthy`);
* raised exceptions (`ValueError`, `IndexError`, failed `assert`) are `none`;
* the unbounded `while` loops of `rollout` (and, defensively, of the traversal)
  take fuel; running out of fuel is also `none`, and every theorem about a
  completed search is conditioned on the run having produced `some` result.
-/

namespace MctsVanilla

/-- An exact, unnormalised fraction `num / den`.  This represents the real
number a Python float expression computes, as long as no rounding is involved;
`den = 0` marks a division by zero. -/
structure Score where
  num : Int
  den : Int
deriving DecidableEq

instance : Inhabited Score := ⟨⟨0, 1⟩⟩

def Score.ofInt (n : Int) : Score := ⟨n, 1⟩

def Score.add (a b : Score) : Score := ⟨a.num * b.den + b.num * a.den, a.den * b.den⟩

def Score.sub (a b : Score) : Score := ⟨a.num * b.den - b.num * a.den, a.den * b.den⟩

def Score.mul (a b : Score) : Score := ⟨a.num * b.num, a.den * b.den⟩

def Score.div (a b : Score) : Score := ⟨a.num * b.den, a.den * b.num⟩

/-- Strict comparison `a < b`; faithful to the rational order whenever both
denominators are positive (which holds for every score the search computes). -/
def Score.blt (a b : Score) : Bool := a.num * b.den < b.num * a.den

/-- Comparison `a ≤ b`; faithful to the rational order whenever both
denominators are positive. -/
def Score.ble (a b : Score) : Bool := a.num * b.den ≤ b.num * a.den

/-- The game/board collaborator of the search, abstracted behind the fixed
contract of §6 of the specification (the concrete `p2_t3.Board` is out of
scope): terminal test, legal actions, deterministic transition, player to
move, and the outcome mapping, which is defined (`some`) exactly on terminal
states. -/
structure Game (σ α : Type) where
  is_ended : σ → Bool
  legal_actions : σ → List α
  next_state : σ → α → σ
  current_player : σ → Nat
  points_values : σ → Option (Nat → Int)

/-- Modelled from the spec: the class `MCTSNode` lives in module `mcts_node`,
which is not under `src/`; §3 of the specification describes it as a plain
record with a parent back-reference, the action that produced the node, a
mapping from actions to children, the mutable list of untried actions
(initialised to the full legal-action list of the node's state), and the two
counters `visits` (non-negative) and `wins` (a signed accumulator).  Parent
and child references are arena indices. -/
structure MCTSNode (α : Type) where
  parent : Option Nat
  parent_action : Option α
  child_nodes : List (α × Nat)
  untried_actions : List α
  visits : Nat
  wins : Int
deriving DecidableEq

instance {α : Type} : Inhabited (MCTSNode α) := ⟨⟨none, none, [], [], 0, 0⟩⟩

/-- The search tree: an arena of nodes.  Index 0 is the root. -/
abbrev Arena (α : Type) : Type := List (MCTSNode α)

def getN {α : Type} (t : Arena α) (i : Nat) : MCTSNode α := (List.get? t i).getD default

def setN {α : Type} (t : Arena α) (i : Nat) (f : MCTSNode α → MCTSNode α) : Arena α :=
  List.set t i (f (getN t i))

def arLen {α : Type} (t : Arena α) : Nat := List.length t

/-- Insertion into a Python `dict` rendered as an insertion-ordered
association list: an existing key keeps its position and gets the new value,
a new key is appended. -/
def dictInsert {α : Type} [DecidableEq α] : List (α × Nat) → α → Nat → List (α × Nat)
  | [], a, v => [(a, v)]
  | p :: d, a, v => if p.1 = a then (a, v) :: d else p :: dictInsert d a v

/-- Lookup in a Python `dict` rendered as an association list. -/
def dictGet {α : Type} [DecidableEq α] : List (α × Nat) → α → Option Nat
  | [], _ => none
  | p :: d, a => if p.1 = a then some p.2 else dictGet d a

/-- Python `random.choice(l)` driven by an explicit pick: element
`pick % len(l)`, and `none` (an `IndexError`) on the empty list. -/
def pyChoice {α : Type} (l : List α) (pick : Nat) : Option α :=
  match l with
  | [] => none
  | a :: _ => some (l.getD (pick % l.length) a)

/-- Truthiness of a Python `int`: nonzero ints are truthy. -/
def pyTruthy (n : Nat) : Bool := n != 0

/-- Python `max(l, key=k)`: `none` on the empty list, otherwise the scan that
keeps the current maximum and replaces it only on a strictly greater key, so
the first maximal element wins. -/
def pyMaxBy {β : Type} (k : β → Score) : List β → Option β
  | [] => none
  | x :: xs => some (xs.foldl (fun acc y => if (k acc).blt (k y) then y else acc) x)

/-- Source constant `num_nodes = 1000`: the number of search iterations. -/
def num_nodes : Nat := 1000

/-- Source constant `explore_faction = 2`. -/
def explore_faction : Score := Score.ofInt 2

/-- The UCB score of node `i` (source function `ucb`).  `sq` and `lg` stand
for `math.sqrt` and `math.log`.  A root node (no parent) makes Python raise an
`AttributeError` on `node.parent.visits`; the search only ever scores children,
so that branch (parent visits read as `0`) is never reached, and every theorem
about `ucb` assumes the node has a parent. -/
def ucb {α : Type} (sq lg : Score → Score) (t : Arena α) (i : Nat) (is_opponent : Bool) :
    Score :=
  let node := getN t i
  let pvisits : Score :=
    match node.parent with
    | some p => Score.ofInt ((getN t p).visits : Int)
    | none => Score.ofInt 0
  if node.visits = 0 then
    sq (lg (Score.add pvisits (Score.ofInt 1)))
  else
    let exploitation0 := Score.div (Score.ofInt node.wins) (Score.ofInt (node.visits : Int))
    let exploitation :=
      if is_opponent then Score.sub (Score.ofInt 1) exploitation0 else exploitation0
    let exploration :=
      Score.mul explore_faction (sq (Score.div (lg pvisits) (Score.ofInt (node.visits : Int))))
    Score.add exploitation exploration

/-- Modelled from the spec (§4.2): the reference UCB formula, written from the
specification's words in terms of the node's own statistics, the parent's
visit count, and the exploration constant `c`. -/
def ucb_spec (sq lg : Score → Score) (c : Score) (parent_visits visits : Nat) (wins : Int)
    (is_opponent : Bool) : Score :=
  if visits = 0 then
    sq (lg (Score.add (Score.ofInt (parent_visits : Int)) (Score.ofInt 1)))
  else
    let exploitation0 := Score.div (Score.ofInt wins) (Score.ofInt (visits : Int))
    let exploitation :=
      if is_opponent then Score.sub (Score.ofInt 1) exploitation0 else exploitation0
    let exploration :=
      Score.mul c (sq (Score.div (lg (Score.ofInt (parent_visits : Int)))
        (Score.ofInt (visits : Int))))
    Score.add exploitation exploration

/-- The `best_node` computation of `traverse_nodes`: executed only when the
current node still has untried actions, it takes the maximal-UCB element among
the children that themselves still have untried actions (`default=None` on an
empty candidate list).  The perspective flag handed to `ucb` is the truthiness
of `bot_identity`, exactly as in the call `ucb(n, bot_identity)` of the
source. -/
def guardPick {α : Type} (sq lg : Score → Score) (botId : Nat) (t : Arena α) (i : Nat) :
    Option Nat :=
  if 0 < (getN t i).untried_actions.length then
    pyMaxBy (fun j => ucb sq lg t j (pyTruthy botId))
      (((getN t i).child_nodes.map Prod.snd).filter
        (fun j => decide (0 < (getN t j).untried_actions.length)))
  else none

/-- The descent step of `traverse_nodes`: the maximal-UCB element among all
children. -/
def descendPick {α : Type} (sq lg : Score → Score) (botId : Nat) (t : Arena α) (i : Nat) :
    Option Nat :=
  pyMaxBy (fun j => ucb sq lg t j (pyTruthy botId)) ((getN t i).child_nodes.map Prod.snd)

/-- The `while` loop of `traverse_nodes`, with fuel.  Returns the reached node
index together with the local `state` variable at the moment of return ("the
state computed so far"); the source function itself returns only the node, see
`traverse_nodes`. -/
def traverseAux {σ α : Type} (g : Game σ α) (sq lg : Score → Score) (botId : Nat) :
    Nat → Arena α → Nat → σ → Option (Nat × σ)
  | 0, _, _, _ => none
  | fuel + 1, t, i, s =>
    if g.is_ended s then some (i, s)
    else
      match guardPick sq lg botId t i with
      | some best => some (best, s)
      | none =>
        if ((getN t i).child_nodes.map Prod.snd).isEmpty then some (i, s)
        else
          match descendPick sq lg botId t i with
          | none => some (i, s)
          | some j =>
            match (getN t j).parent_action with
            | none => none
            | some a => traverseAux g sq lg botId fuel t j (g.next_state s a)

/-- Source function `traverse_nodes`: it returns only the chosen node — the
`state` advanced during the descent is a local variable that is discarded,
even though the docstring promises to return it. -/
def traverse_nodes {σ α : Type} (g : Game σ α) (sq lg : Score → Score) (botId : Nat)
    (fuel : Nat) (t : Arena α) (i : Nat) (s : σ) : Option Nat :=
  match traverseAux g sq lg botId fuel t i s with
  | none => none
  | some pr => some pr.1

/-- The arena after expanding node `i` with action `a` from state `s`: the
chosen action is erased from the node's untried list, the child (parent `i`,
producing action `a`, untried actions = legal actions of the state reached by
applying `a` to `s`) is appended at the fresh index `arLen t`, and the
parent's `child_nodes` gains the key `a` for it. -/
def expandResult {σ α : Type} [DecidableEq α] (g : Game σ α) (t : Arena α) (i : Nat) (s : σ)
    (a : α) : Arena α :=
  setN t i (fun n =>
      { n with untried_actions := n.untried_actions.erase a,
               child_nodes := dictInsert n.child_nodes a (arLen t) })
    ++ [⟨some i, some a, [], g.legal_actions (g.next_state s a), 0, 0⟩]

/-- Source function `expand_leaf`: pick an untried action at random, apply it
to the state `s` that was passed in, and graft the new child.  Returns the new
arena, the child's index and the new state; `none` is the `IndexError` of
`random.choice([])`. -/
def expand_leaf {σ α : Type} [DecidableEq α] (g : Game σ α) (t : Arena α) (i : Nat) (s : σ)
    (pick : Nat) : Option (Arena α × Nat × σ) :=
  match pyChoice (getN t i).untried_actions pick with
  | none => none
  | some action => some (expandResult g t i s action, arLen t, g.next_state s action)

/-- The `while` loop of `rollout`, with fuel: play uniformly random legal
moves (driven by the pick stream) until the state is terminal. -/
def rolloutAux {σ α : Type} (g : Game σ α) (picks : Nat → Nat) :
    Nat → Nat → σ → Option σ
  | 0, _, _ => none
  | fuel + 1, step, s =>
    if g.is_ended s then some s
    else
      match pyChoice (g.legal_actions s) (picks step) with
      | none => none
      | some mv => rolloutAux g picks fuel (step + 1) (g.next_state s mv)

/-- Source function `rollout`. -/
def rollout {σ α : Type} (g : Game σ α) (picks : Nat → Nat) (fuel : Nat) (s : σ) :
    Option σ :=
  rolloutAux g picks fuel 0 s

/-- One node update of `backpropagate`: `visits += 1`, and `wins` adjusted by
`+1` on a win and `-1` otherwise. -/
def bump {α : Type} (won : Bool) (n : MCTSNode α) : MCTSNode α :=
  { n with visits := n.visits + 1, wins := n.wins + (if won then 1 else -1) }

/-- The `while node is not None` loop of `backpropagate`, with fuel; the fuel
`i + 1` used by `backpropagate` is always sufficient because parent indices
strictly decrease in every arena the search builds. -/
def backpropagateAux {α : Type} (won : Bool) : Nat → Arena α → Nat → Arena α
  | 0, t, _ => t
  | fuel + 1, t, i =>
    let t1 := setN t i (bump won)
    match (getN t1 i).parent with
    | none => t1
    | some p => backpropagateAux won fuel t1 p

/-- Source function `backpropagate`: from a possibly null starting node, walk
up the parent chain updating the counters; `backpropagate(None, won)` is a
no-op. -/
def backpropagate {α : Type} (t : Arena α) (node : Option Nat) (won : Bool) : Arena α :=
  match node with
  | none => t
  | some i => backpropagateAux won (i + 1) t i

/-- The chain of nodes the backpropagation walk visits from node `i`: `i`,
its parent, and so on until a node without parent. -/
def parentChainAux {α : Type} (t : Arena α) : Nat → Nat → List Nat
  | 0, _ => []
  | fuel + 1, i =>
    i :: (match (getN t i).parent with
          | none => []
          | some p => parentChainAux t fuel p)

/-- The path from node `i` up to (and including) the first ancestor without a
parent — the root, in every arena the search builds. -/
def parentChain {α : Type} (t : Arena α) (i : Nat) : List Nat :=
  parentChainAux t (i + 1) i

/-- Source function `is_win`: look up the outcome mapping and test whether the
identity's score is 1.  `none` is the failed assertion
`outcome is not None` on a non-terminal state. -/
def is_win {σ α : Type} (g : Game σ α) (s : σ) (identity_of_bot : Nat) : Option Bool :=
  match g.points_values s with
  | none => none
  | some outcome => some (decide (outcome identity_of_bot = 1))

/-- Source function `get_best_action`: the child of `root` with the maximal
raw win rate `wins / visits`, returning its `parent_action`.  `none` is the
`ValueError` of `max` on an empty sequence. -/
def get_best_action {α : Type} (t : Arena α) (root : Nat) : Option α :=
  match pyMaxBy
      (fun j => Score.div (Score.ofInt (getN t j).wins) (Score.ofInt ((getN t j).visits : Int)))
      ((getN t root).child_nodes.map Prod.snd) with
  | none => none
  | some j => (getN t j).parent_action

/-- Modelled from the spec: the root node `think` creates via the `MCTSNode`
constructor (module `mcts_node`, not under `src/`) — no parent, no producing
action, no children, the full legal-action list of the current state, and
zeroed counters. -/
def rootNode {σ α : Type} (g : Game σ α) (s : σ) : MCTSNode α :=
  ⟨none, none, [], g.legal_actions s, 0, 0⟩

/-- One iteration of the loop of `think`.  Note the faithful modelling of the
source: `state` is reset to the initial state `s0`, `traverse_nodes` hands
back only a node, so the expansion (and, without expansion, the rollout) runs
from `s0`, not from the state the traversal reached.  `rnd 0` drives the
`random.choice` of the expansion and `rnd (k+1)` the k-th rollout move. -/
def thinkIter {σ α : Type} [DecidableEq α] (g : Game σ α) (sq lg : Score → Score)
    (botId : Nat) (s0 : σ) (rnd : Nat → Nat) (fuel : Nat) (t : Arena α) :
    Option (Arena α) :=
  match traverse_nodes g sq lg botId (arLen t + 1) t 0 s0 with
  | none => none
  | some node =>
    if 0 < (getN t node).untried_actions.length then
      match expand_leaf g t node s0 (rnd 0) with
      | none => none
      | some (t1, newNode, newState) =>
        match rollout g (fun k => rnd (k + 1)) fuel newState with
        | none => none
        | some terminal_state =>
          match is_win g terminal_state botId with
          | none => none
          | some won => some (backpropagate t1 (some newNode) won)
    else
      match rollout g (fun k => rnd (k + 1)) fuel s0 with
      | none => none
      | some terminal_state =>
        match is_win g terminal_state botId with
        | none => none
        | some won => some (backpropagate t (some node) won)

/-- The iteration loop of `think`: `n` completed iterations starting from
arena `t`; iteration `k` draws its picks from `R k`. -/
def thinkLoop {σ α : Type} [DecidableEq α] (g : Game σ α) (sq lg : Score → Score)
    (botId : Nat) (s0 : σ) (R : Nat → Nat → Nat) (fuel : Nat) :
    Nat → Arena α → Option (Arena α)
  | 0, t => some t
  | n + 1, t =>
    match thinkLoop g sq lg botId s0 R fuel n t with
    | none => none
    | some t1 => thinkIter g sq lg botId s0 (R n) fuel t1

/-- Source function `think` with an explicit iteration count `n`: determine
`bot_identity`, build the root from the full legal-action list, run the
iterations, and extract the final decision with `get_best_action`. -/
def thinkWith {σ α : Type} [DecidableEq α] (g : Game σ α) (sq lg : Score → Score)
    (R : Nat → Nat → Nat) (fuel : Nat) (n : Nat) (s0 : σ) : Option α :=
  match thinkLoop g sq lg (g.current_player s0) s0 R fuel n [rootNode g s0] with
  | none => none
  | some t => get_best_action t 0

/-- Source function `think`, with the reference iteration count
`num_nodes = 1000`. -/
def think {σ α : Type} [DecidableEq α] (g : Game σ α) (sq lg : Score → Score)
    (R : Nat → Nat → Nat) (fuel : Nat) (s0 : σ) : Option α :=
  thinkWith g sq lg R fuel num_nodes s0

/-! ### Structural invariants of the arenas the search builds -/

/-- The parent index of a node, if any, is strictly smaller than the node's
own index (children are appended after their parents). -/
def wfAt {α : Type} (t : Arena α) (j : Nat) : Bool :=
  Option.all (fun p => decide (p < j)) (getN t j).parent

def Wf {α : Type} (t : Arena α) : Prop := ∀ j, j < arLen t → wfAt t j = true

instance {α : Type} (t : Arena α) : Decidable (Wf t) := by
  unfold Wf
  exact Nat.decidableBallLT _ _

/-- Every node except the root (index 0) has a parent. -/
def rootedAt {α : Type} (t : Arena α) (j : Nat) : Bool :=
  (j == 0) || (getN t j).parent.isSome

def Rooted {α : Type} (t : Arena α) : Prop := ∀ j, j < arLen t → rootedAt t j = true

instance {α : Type} (t : Arena α) : Decidable (Rooted t) := by
  unfold Rooted
  exact Nat.decidableBallLT _ _

/-- Every child edge of node `j` points forward, into the arena, and the
child points back to `j`. -/
def childrenOK {α : Type} (t : Arena α) (j : Nat) : Bool :=
  (getN t j).child_nodes.all
    (fun pr => decide (j < pr.2) && decide (pr.2 < arLen t) &&
      ((getN t pr.2).parent == some j))

/-- The keys and the child indices of a node's `child_nodes` mapping are
duplicate-free (Python dict keys are unique; child indices are fresh). -/
def childND {α : Type} [DecidableEq α] (t : Arena α) (j : Nat) : Bool :=
  decide ((getN t j).child_nodes.map Prod.fst).Nodup &&
  decide ((getN t j).child_nodes.map Prod.snd).Nodup

def nodeOK {α : Type} [DecidableEq α] (t : Arena α) (j : Nat) : Bool :=
  wfAt t j && rootedAt t j && childrenOK t j && childND t j

/-- The structural invariant every arena built by `think` satisfies. -/
def Inv {α : Type} [DecidableEq α] (t : Arena α) : Prop :=
  0 < arLen t ∧ (getN t 0).parent = none ∧ ∀ j, j < arLen t → nodeOK t j = true

/-- Sum of the visit counters over the direct children of the root. -/
def rootChildSum {α : Type} (t : Arena α) : Nat :=
  (((getN t 0).child_nodes.map Prod.snd).map (fun j => (getN t j).visits)).sum

/-- Every node registered as a child of some node has been visited at least
once (it was backpropagated through in the iteration that created it). -/
def ChildVisits {α : Type} (t : Arena α) : Prop :=
  ∀ i, i < arLen t → ∀ pr ∈ (getN t i).child_nodes, 1 ≤ (getN t pr.2).visits

/-! ### Concrete games and arenas used by witnesses and counterexamples -/

/-- Identity stand-in for `sqrt`/`log` in concrete evaluations. -/
def sId : Score → Score := fun q => q

/-- A game whose every state is terminal (decision requested on a finished
game): no legal actions anywhere, player 1 has won everywhere. -/
def gTerm : Game Nat Nat :=
  ⟨fun _ => true, fun _ => [], fun s _ => s, fun _ => 1,
   fun _ => some (fun i => if i = 1 then 1 else 0)⟩

/-- A game that never ends and never defines an outcome, to exhibit the
assertion of `is_win`. -/
def gOpen : Game Nat Nat :=
  ⟨fun _ => false, fun _ => [0], fun s _ => s, fun _ => 1, fun _ => none⟩

/-- A small deterministic chain game: from 0 the only move is 1, from 1 the
only move is 2, from 2 the only move is 7; every other state is terminal and
a win for player 1.  Transitions append a digit: `next s a = 10*s + a`. -/
def legalC : Nat → List Nat := fun s =>
  if s = 0 then [1] else if s = 1 then [2] else if s = 2 then [7] else []

def gChain : Game Nat Nat :=
  ⟨fun s => (legalC s).isEmpty, legalC, fun s a => 10 * s + a, fun _ => 1,
   fun s => if (legalC s).isEmpty then some (fun i => if i = 1 then 1 else 0) else none⟩

/-- A game used with hand-built arenas: states below 100 are open with one
legal move, states from 100 on are terminal wins for player 1. -/
def gStep : Game Nat Nat :=
  ⟨fun s => decide (100 ≤ s), fun s => if 100 ≤ s then [] else [9],
   fun s a => 10 * s + a, fun _ => 1,
   fun s => if 100 ≤ s then some (fun i => if i = 1 then 1 else 0) else none⟩

/-- Arena for the C2 counterexample: a root (4 visits, both actions tried)
with children A (index 1, 0 wins of 2 visits) and B (index 2, 2 wins of 2
visits).  Both edges out of the root are moves of the deciding player. -/
def t2 : Arena Nat :=
  [⟨none, none, [(1, 1), (2, 2)], [], 4, 0⟩,
   ⟨some 0, some 1, [], [9], 2, 0⟩,
   ⟨some 0, some 2, [], [], 2, 2⟩]

/-- Arena for the C3 counterexample: the root has no untried actions; child A
(index 1) still has an untried action, child B (index 2) has none, and B has
the higher UCB score under the flag the code passes. -/
def t3 : Arena Nat :=
  [⟨none, none, [(1, 1), (2, 2)], [], 4, 0⟩,
   ⟨some 0, some 1, [], [9], 2, 2⟩,
   ⟨some 0, some 2, [], [], 2, 0⟩]

/-- Variant of `t3` whose root still has an untried action, so the guard of
the traversal applies. -/
def t3b : Arena Nat :=
  [⟨none, none, [(1, 1), (2, 2)], [8], 4, 0⟩,
   ⟨some 0, some 1, [], [9], 2, 2⟩,
   ⟨some 0, some 2, [], [], 2, 0⟩]

/-- Arena for the C5 witness. -/
def t5 : Arena Nat :=
  [⟨none, none, [(5, 1)], [], 3, 1⟩,
   ⟨some 0, some 5, [], [9], 2, 0⟩]

/-- Arena for the C4 and C6 witnesses: a root with one untried action and one
expanded child. -/
def t6 : Arena Nat :=
  [⟨none, none, [(4, 1)], [3], 2, 1⟩,
   ⟨some 0, some 4, [], [], 1, 1⟩]

/-- The arena after one iteration of `think` on `gChain` (picks all 0). -/
def cArena1 : Arena Nat :=
  (thinkLoop gChain sId sId 1 0 (fun _ _ => 0) 5 1 [rootNode gChain 0]).getD []

/-- The arena after two iterations of `think` on `gChain` (picks all 0). -/
def cArena2 : Arena Nat :=
  (thinkLoop gChain sId sId 1 0 (fun _ _ => 0) 5 2 [rootNode gChain 0]).getD []

/-- The arena after one iteration of `think` on the terminal game `gTerm`. -/
def tArena1 : Arena Nat :=
  (thinkLoop gTerm sId sId 1 0 (fun _ _ => 0) 3 1 [rootNode gTerm 0]).getD []

/-! ### Arena access lemmas -/

theorem arLen_setN {α : Type} (t : Arena α) (i : Nat) (f : MCTSNode α → MCTSNode α) :
    arLen (setN t i f) = arLen t := by
  simp [arLen, setN]

theorem getN_setN_self {α : Type} {t : Arena α} {i : Nat} (f : MCTSNode α → MCTSNode α)
    (h : i < arLen t) : getN (setN t i f) i = f (getN t i) := by
  simp [getN, setN, List.get?_eq_getElem?, List.getElem?_set_eq_of_lt _ h]

theorem getN_setN_ne {α : Type} {t : Arena α} {i j : Nat} (f : MCTSNode α → MCTSNode α)
    (h : j ≠ i) : getN (setN t i f) j = getN t j := by
  simp [getN, setN, List.get?_eq_getElem?, List.getElem?_set_ne (Ne.symm h)]

theorem setN_oob {α : Type} {t : Arena α} {i : Nat} (f : MCTSNode α → MCTSNode α)
    (h : arLen t ≤ i) : setN t i f = t :=
  List.set_eq_of_length_le h

theorem getN_oob {α : Type} {t : Arena α} {j : Nat} (h : arLen t ≤ j) : getN t j = default := by
  simp [getN, List.get?_eq_getElem?, List.getElem?_eq_none_iff.mpr h]

theorem getN_append_lt {α : Type} {t : Arena α} {j : Nat} (c : MCTSNode α) (h : j < arLen t) :
    getN (t ++ [c]) j = getN t j := by
  simp [getN, List.get?_eq_getElem?, List.getElem?_append_left h]

theorem getN_append_self {α : Type} (t : Arena α) (c : MCTSNode α) :
    getN (t ++ [c]) (arLen t) = c := by
  simp [getN, arLen, List.get?_eq_getElem?, List.getElem?_concat_length]

theorem getN_append_oob {α : Type} {t : Arena α} {j : Nat} (c : MCTSNode α)
    (h : arLen t + 1 ≤ j) : getN (t ++ [c]) j = default := by
  apply getN_oob
  simpa [arLen] using h

theorem arLen_append1 {α : Type} (t : Arena α) (c : MCTSNode α) :
    arLen (t ++ [c]) = arLen t + 1 := by
  simp [arLen]

/-! ### Dictionary lemmas -/

theorem dictInsert_mem {α : Type} [DecidableEq α] {d : List (α × Nat)} {a : α} {v : Nat}
    {pr : α × Nat} : pr ∈ dictInsert d a v → pr ∈ d ∨ pr = (a, v) := by
  induction d with
  | nil => intro h; simpa [dictInsert] using h
  | cons p d ih =>
    intro h
    by_cases hp : p.1 = a
    · simp only [dictInsert, if_pos hp, List.mem_cons] at h
      rcases h with h | h
      · right; exact h
      · left; exact List.mem_cons_of_mem _ h
    · simp only [dictInsert, if_neg hp, List.mem_cons] at h
      rcases h with h | h
      · left; simp [h]
      · rcases ih h with h1 | h1
        · left; exact List.mem_cons_of_mem _ h1
        · right; exact h1

theorem dictInsert_keys_mem {α : Type} [DecidableEq α] {d : List (α × Nat)} {a : α} {v : Nat}
    {k : α} (h : k ∈ (dictInsert d a v).map Prod.fst) : k ∈ d.map Prod.fst ∨ k = a := by
  rcases List.mem_map.mp h with ⟨pr, hpr, hk⟩
  rcases dictInsert_mem hpr with h1 | h1
  · left; exact List.mem_map.mpr ⟨pr, h1, hk⟩
  · right; rw [h1] at hk; exact hk.symm

theorem dictInsert_vals_mem {α : Type} [DecidableEq α] {d : List (α × Nat)} {a : α} {v : Nat}
    {x : Nat} (h : x ∈ (dictInsert d a v).map Prod.snd) : x ∈ d.map Prod.snd ∨ x = v := by
  rcases List.mem_map.mp h with ⟨pr, hpr, hx⟩
  rcases dictInsert_mem hpr with h1 | h1
  · left; exact List.mem_map.mpr ⟨pr, h1, hx⟩
  · right; rw [h1] at hx; exact hx.symm

theorem dictInsert_keys_nodup {α : Type} [DecidableEq α] {d : List (α × Nat)} {a : α}
    {v : Nat} (h : (d.map Prod.fst).Nodup) : ((dictInsert d a v).map Prod.fst).Nodup := by
  induction d with
  | nil => simp [dictInsert]
  | cons p d ih =>
    simp only [List.map_cons, List.nodup_cons] at h
    by_cases hp : p.1 = a
    · simp only [dictInsert, if_pos hp, List.map_cons, List.nodup_cons]
      exact ⟨by rw [← hp]; exact h.1, h.2⟩
    · simp only [dictInsert, if_neg hp, List.map_cons, List.nodup_cons]
      refine ⟨fun hmem => ?_, ih h.2⟩
      rcases dictInsert_keys_mem hmem with h1 | h1
      · exact h.1 h1
      · exact hp h1

theorem dictInsert_vals_nodup {α : Type} [DecidableEq α] {d : List (α × Nat)} {a : α}
    {v : Nat} (h : (d.map Prod.snd).Nodup) (hv : v ∉ d.map Prod.snd) :
    ((dictInsert d a v).map Prod.snd).Nodup := by
  induction d with
  | nil => simp [dictInsert]
  | cons p d ih =>
    simp only [List.map_cons, List.nodup_cons] at h
    simp only [List.map_cons, List.mem_cons] at hv
    push_neg at hv
    by_cases hp : p.1 = a
    · simp only [dictInsert, if_pos hp, List.map_cons, List.nodup_cons]
      exact ⟨hv.2, h.2⟩
    · simp only [dictInsert, if_neg hp, List.map_cons, List.nodup_cons]
      refine ⟨fun hmem => ?_, ih h.2 hv.2⟩
      rcases dictInsert_vals_mem hmem with h1 | h1
      · exact h.1 h1
      · exact hv.1 h1.symm

theorem dictInsert_sum_le {α : Type} [DecidableEq α] (d : List (α × Nat)) (a : α) (v : Nat)
    (f : Nat → Nat) :
    (((dictInsert d a v).map Prod.snd).map f).sum ≤ ((d.map Prod.snd).map f).sum + f v := by
  induction d with
  | nil => simp [dictInsert]
  | cons p d ih =>
    by_cases hp : p.1 = a
    · simp only [dictInsert, if_pos hp, List.map_cons, List.sum_cons]
      omega
    · simp only [dictInsert, if_neg hp, List.map_cons, List.sum_cons]
      omega

theorem dictGet_insert_self {α : Type} [DecidableEq α] (d : List (α × Nat)) (a : α) (v : Nat) :
    dictGet (dictInsert d a v) a = some v := by
  induction d with
  | nil => simp [dictInsert, dictGet]
  | cons p d ih =>
    by_cases hp : p.1 = a
    · simp [dictInsert, if_pos hp, dictGet]
    · simp [dictInsert, if_neg hp, dictGet, hp, ih]

theorem dictGet_insert_ne {α : Type} [DecidableEq α] (d : List (α × Nat)) (a : α) (v : Nat)
    {k : α} (hk : k ≠ a) : dictGet (dictInsert d a v) k = dictGet d k := by
  induction d with
  | nil => simp [dictInsert, dictGet, Ne.symm hk]
  | cons p d ih =>
    by_cases hp : p.1 = a
    · simp only [dictInsert, if_pos hp]
      simp [dictGet, Ne.symm hk, hp]
    · simp only [dictInsert, if_neg hp]
      by_cases hpk : p.1 = k
      · simp [dictGet, hpk]
      · simp [dictGet, hpk, ih]

theorem dictGet_ne_none_iff {α : Type} [DecidableEq α] (d : List (α × Nat)) (k : α) :
    dictGet d k ≠ none ↔ k ∈ d.map Prod.fst := by
  induction d with
  | nil => simp [dictGet]
  | cons p d ih =>
    by_cases hp : p.1 = k
    · simp [dictGet, hp]
    · simp [dictGet, hp, ih, Ne.symm hp]

/-! ### Python helper lemmas -/

theorem pyChoice_mem {α : Type} {l : List α} {pick : Nat} {a : α}
    (h : pyChoice l pick = some a) : a ∈ l := by
  match l with
  | [] => simp [pyChoice] at h
  | b :: l =>
    simp only [pyChoice, Option.some.injEq] at h
    have hlt : pick % (b :: l).length < (b :: l).length :=
      Nat.mod_lt _ (by simp)
    rw [List.getD_eq_getElem _ _ hlt] at h
    rw [← h]
    exact List.getElem_mem hlt

theorem pyChoice_isSome {α : Type} {l : List α} (pick : Nat) (h : l ≠ []) :
    ∃ a, pyChoice l pick = some a := by
  match l with
  | [] => exact absurd rfl h
  | b :: l => exact ⟨_, rfl⟩

theorem pyMaxBy_foldl_mem {β : Type} (k : β → Score) (l : List β) :
    ∀ acc : β,
      (l.foldl (fun acc y => if (k acc).blt (k y) then y else acc) acc = acc ∨
       l.foldl (fun acc y => if (k acc).blt (k y) then y else acc) acc ∈ l) := by
  induction l with
  | nil => intro acc; left; rfl
  | cons y ys ih =>
    intro acc
    simp only [List.foldl_cons]
    rcases ih (if (k acc).blt (k y) then y else acc) with h | h
    · rw [h]
      by_cases hb : (k acc).blt (k y)
      · right; simp [hb]
      · left; simp [hb]
    · right; exact List.mem_cons_of_mem _ h

theorem pyMaxBy_mem {β : Type} {k : β → Score} {l : List β} {x : β}
    (h : pyMaxBy k l = some x) : x ∈ l := by
  match l with
  | [] => simp [pyMaxBy] at h
  | b :: l =>
    simp only [pyMaxBy, Option.some.injEq] at h
    rcases pyMaxBy_foldl_mem k l b with h1 | h1
    · rw [h] at h1; rw [h1]; exact List.mem_cons_self _ _
    · rw [h] at h1; exact List.mem_cons_of_mem _ h1

/-! ### Score order lemmas (valid readings of `blt`/`ble` for positive
denominators, which is all the search ever produces) -/

theorem Score.ble_refl (a : Score) : Score.ble a a = true := by
  simp [Score.ble]

theorem Score.ble_of_blt {a b : Score} (h : Score.blt a b = true) : Score.ble a b = true := by
  simp only [Score.blt, decide_eq_true_eq] at h
  simp only [Score.ble, decide_eq_true_eq]
  exact le_of_lt h

theorem Score.ble_of_not_blt {a b : Score} (h : Score.blt a b = false) :
    Score.ble b a = true := by
  simp only [Score.blt, decide_eq_false_iff_not] at h
  simp only [Score.ble, decide_eq_true_eq]
  exact Int.not_lt.mp h

theorem Score.ble_trans {a b c : Score} (ha : 0 < a.den) (hb : 0 < b.den) (hc : 0 < c.den)
    (h1 : Score.ble a b = true) (h2 : Score.ble b c = true) : Score.ble a c = true := by
  simp only [Score.ble, decide_eq_true_eq] at h1 h2 ⊢
  nlinarith [mul_le_mul_of_nonneg_right h1 hc.le, mul_le_mul_of_nonneg_right h2 ha.le]

theorem pyMaxBy_foldl_ble {β : Type} (k : β → Score) (l : List β) :
    ∀ acc : β, 0 < (k acc).den → (∀ c ∈ l, 0 < (k c).den) →
      Score.ble (k acc) (k (l.foldl (fun acc y => if (k acc).blt (k y) then y else acc) acc))
          = true ∧
      ∀ c ∈ l,
        Score.ble (k c) (k (l.foldl (fun acc y => if (k acc).blt (k y) then y else acc) acc))
          = true := by
  induction l with
  | nil =>
    intro acc _ _
    exact ⟨Score.ble_refl _, by intro c hc; cases hc⟩
  | cons y ys ih =>
    intro acc hacc hl
    have hy : 0 < (k y).den := hl y (List.mem_cons_self _ _)
    have hys : ∀ c ∈ ys, 0 < (k c).den := fun c hc => hl c (List.mem_cons_of_mem _ hc)
    simp only [List.foldl_cons]
    set acc1 := if (k acc).blt (k y) then y else acc with hacc1
    have hacc1pos : 0 < (k acc1).den := by
      by_cases hb : (k acc).blt (k y) <;> simp [hacc1, hb, hy, hacc]
    obtain ⟨ih1, ih2⟩ := ih acc1 hacc1pos hys
    have hrespos :
        0 < (k (ys.foldl (fun acc y => if (k acc).blt (k y) then y else acc) acc1)).den := by
      rcases pyMaxBy_foldl_mem k ys acc1 with h | h
      · rw [h]; exact hacc1pos
      · exact hys _ h
    have haccacc1 : Score.ble (k acc) (k acc1) = true := by
      by_cases hb : (k acc).blt (k y)
      · simp only [hacc1, if_pos hb]
        exact Score.ble_of_blt hb
      · simp only [hacc1, if_neg hb]
        exact Score.ble_refl _
    refine ⟨Score.ble_trans hacc hacc1pos hrespos haccacc1 ih1, ?_⟩
    intro c hc
    rcases List.mem_cons.mp hc with rfl | hc1
    · by_cases hb : (k acc).blt (k c)
      · have : acc1 = c := by simp [hacc1, hb]
        rw [← this]; exact ih1
      · have h1 : Score.ble (k c) (k acc) = true :=
          Score.ble_of_not_blt (by simpa using hb)
        have h2 : acc1 = acc := by simp [hacc1, hb]
        exact Score.ble_trans hy hacc hrespos h1 (h2 ▸ ih1)
    · exact ih2 c hc1

theorem pyMaxBy_ble {β : Type} {k : β → Score} {l : List β} {x : β}
    (h : pyMaxBy k l = some x) (hpos : ∀ c ∈ l, 0 < (k c).den) :
    ∀ c ∈ l, Score.ble (k c) (k x) = true := by
  match l with
  | [] => simp [pyMaxBy] at h
  | b :: l =>
    simp only [pyMaxBy, Option.some.injEq] at h
    have hb : 0 < (k b).den := hpos b (List.mem_cons_self _ _)
    have hl : ∀ c ∈ l, 0 < (k c).den := fun c hc => hpos c (List.mem_cons_of_mem _ hc)
    obtain ⟨h1, h2⟩ := pyMaxBy_foldl_ble k l b hb hl
    intro c hc
    rcases List.mem_cons.mp hc with rfl | hc1
    · rw [h] at h1; exact h1
    · rw [h] at h2; exact h2 c hc1

/-! ### Invariant accessor lemmas -/

theorem wf_parent {α : Type} {t : Arena α} (hwf : Wf t) {i p : Nat} (hi : i < arLen t)
    (hp : (getN t i).parent = some p) : p < i := by
  have h := hwf i hi
  unfold wfAt at h
  rw [hp] at h
  simpa [Option.all] using h

theorem wfAt_congr {α : Type} {t1 t2 : Arena α} {j : Nat}
    (hp : (getN t1 j).parent = (getN t2 j).parent) : wfAt t1 j = wfAt t2 j := by
  unfold wfAt
  rw [hp]

theorem rooted_parent {α : Type} {t : Arena α} (hr : Rooted t) {i : Nat} (hi : i < arLen t)
    (h0 : i ≠ 0) : ∃ p, (getN t i).parent = some p := by
  have h := hr i hi
  unfold rootedAt at h
  rw [Bool.or_eq_true, beq_iff_eq] at h
  rcases h with h | h
  · exact absurd h h0
  · exact Option.isSome_iff_exists.mp h

/-! ### Backpropagation and parent-chain lemmas -/

theorem parent_setN_bump {α : Type} {won : Bool} (t : Arena α) (i : Nat) :
    (getN (setN t i (bump won)) i).parent = (getN t i).parent := by
  rcases lt_or_ge i (arLen t) with h | h
  · rw [getN_setN_self _ h]; rfl
  · rw [setN_oob _ h]

theorem struct_setN_bump {α : Type} {won : Bool} (t : Arena α) (i j : Nat) :
    ((getN (setN t i (bump won)) j).parent = (getN t j).parent) ∧
    ((getN (setN t i (bump won)) j).child_nodes = (getN t j).child_nodes) ∧
    ((getN (setN t i (bump won)) j).untried_actions = (getN t j).untried_actions) ∧
    ((getN (setN t i (bump won)) j).parent_action = (getN t j).parent_action) := by
  rcases eq_or_ne j i with rfl | hne
  · rcases lt_or_ge j (arLen t) with h | h
    · rw [getN_setN_self _ h]
      exact ⟨rfl, rfl, rfl, rfl⟩
    · rw [setN_oob _ h]
      exact ⟨rfl, rfl, rfl, rfl⟩
  · rw [getN_setN_ne _ hne]
    exact ⟨rfl, rfl, rfl, rfl⟩

theorem visits_setN_bump {α : Type} {won : Bool} (t : Arena α) (i j : Nat) :
    (getN t j).visits ≤ (getN (setN t i (bump won)) j).visits := by
  rcases eq_or_ne j i with rfl | hne
  · rcases lt_or_ge j (arLen t) with h | h
    · rw [getN_setN_self _ h]
      exact Nat.le_succ _
    · rw [setN_oob _ h]
  · rw [getN_setN_ne _ hne]

theorem backpropAux_len {α : Type} (won : Bool) :
    ∀ (fuel : Nat) (t : Arena α) (i : Nat),
      arLen (backpropagateAux won fuel t i) = arLen t := by
  intro fuel
  induction fuel with
  | zero => intro t i; rfl
  | succ fuel ih =>
    intro t i
    simp only [backpropagateAux]
    cases h : (getN (setN t i (bump won)) i).parent with
    | none => simp [h, arLen_setN]
    | some p => simp only [h]; rw [ih, arLen_setN]

theorem backpropAux_struct {α : Type} (won : Bool) :
    ∀ (fuel : Nat) (t : Arena α) (i j : Nat),
      ((getN (backpropagateAux won fuel t i) j).parent = (getN t j).parent) ∧
      ((getN (backpropagateAux won fuel t i) j).child_nodes = (getN t j).child_nodes) ∧
      ((getN (backpropagateAux won fuel t i) j).untried_actions =
        (getN t j).untried_actions) ∧
      ((getN (backpropagateAux won fuel t i) j).parent_action =
        (getN t j).parent_action) := by
  intro fuel
  induction fuel with
  | zero => intro t i j; exact ⟨rfl, rfl, rfl, rfl⟩
  | succ fuel ih =>
    intro t i j
    simp only [backpropagateAux]
    cases h : (getN (setN t i (bump won)) i).parent with
    | none => simp only [h]; exact struct_setN_bump t i j
    | some p =>
      simp only [h]
      obtain ⟨e1, e2, e3, e4⟩ := ih (setN t i (bump won)) p j
      obtain ⟨f1, f2, f3, f4⟩ := @struct_setN_bump _ won t i j
      exact ⟨e1.trans f1, e2.trans f2, e3.trans f3, e4.trans f4⟩

theorem backpropAux_visits_ge {α : Type} (won : Bool) :
    ∀ (fuel : Nat) (t : Arena α) (i j : Nat),
      (getN t j).visits ≤ (getN (backpropagateAux won fuel t i) j).visits := by
  intro fuel
  induction fuel with
  | zero => intro t i j; exact le_refl _
  | succ fuel ih =>
    intro t i j
    simp only [backpropagateAux]
    cases h : (getN (setN t i (bump won)) i).parent with
    | none => simp only [h]; exact visits_setN_bump t i j
    | some p =>
      simp only [h]
      exact le_trans (visits_setN_bump t i j) (ih (setN t i (bump won)) p j)

theorem chainAux_congr {α : Type} {t1 t2 : Arena α}
    (hp : ∀ j, (getN t1 j).parent = (getN t2 j).parent) :
    ∀ (fuel i : Nat), parentChainAux t1 fuel i = parentChainAux t2 fuel i := by
  intro fuel
  induction fuel with
  | zero => intro i; rfl
  | succ fuel ih =>
    intro i
    simp only [parentChainAux]
    rw [hp i]
    cases (getN t2 i).parent with
    | none => rfl
    | some p => simp [ih p]

theorem chainAux_le {α : Type} {t : Arena α} (hwf : Wf t) :
    ∀ (fuel i : Nat), i < arLen t → ∀ j ∈ parentChainAux t fuel i, j ≤ i := by
  intro fuel
  induction fuel with
  | zero => intro i _ j hj; cases hj
  | succ fuel ih =>
    intro i hi j hj
    simp only [parentChainAux] at hj
    rcases List.mem_cons.mp hj with rfl | hj1
    · exact le_refl _
    · cases hpar : (getN t i).parent with
      | none => rw [hpar] at hj1; cases hj1
      | some p =>
        rw [hpar] at hj1
        have hpi : p < i := wf_parent hwf hi hpar
        exact le_trans (ih p (lt_trans hpi hi) j hj1) hpi.le

theorem chainAux_head {α : Type} (t : Arena α) (fuel i : Nat) :
    i ∈ parentChainAux t (fuel + 1) i := by
  simp only [parentChainAux]
  exact List.mem_cons_self _ _

theorem chainAux_root {α : Type} {t : Arena α} (hwf : Wf t) (hr : Rooted t) :
    ∀ (fuel i : Nat), i < arLen t → i < fuel → 0 ∈ parentChainAux t fuel i := by
  intro fuel
  induction fuel with
  | zero => intro i _ h; cases h
  | succ fuel ih =>
    intro i hi hfuel
    simp only [parentChainAux]
    cases hpar : (getN t i).parent with
    | none =>
      have h0 : i = 0 := by
        by_contra hne
        obtain ⟨p, hp⟩ := rooted_parent hr hi hne
        rw [hpar] at hp
        cases hp
      rw [h0]
      exact List.mem_cons_self _ _
    | some p =>
      have hpi : p < i := wf_parent hwf hi hpar
      exact List.mem_cons_of_mem _ (ih p (lt_trans hpi hi) (by omega))

theorem chainAux_inj {α : Type} {t : Arena α} (hwf : Wf t) :
    ∀ (fuel i : Nat), i < arLen t →
      ∀ a ∈ parentChainAux t fuel i, ∀ b ∈ parentChainAux t fuel i,
        ∀ r, (getN t a).parent = some r → (getN t b).parent = some r → a = b := by
  intro fuel
  induction fuel with
  | zero => intro i _ a ha; cases ha
  | succ fuel ih =>
    intro i hi a ha b hb r h1 h2
    simp only [parentChainAux] at ha hb
    cases hpar : (getN t i).parent with
    | none =>
      rw [hpar] at ha hb
      simp only [List.mem_singleton] at ha hb
      rw [ha, hb]
    | some p =>
      rw [hpar] at ha hb
      have hpi : p < i := wf_parent hwf hi hpar
      have hplen : p < arLen t := lt_trans hpi hi
      rcases List.mem_cons.mp ha with rfl | ha1 <;> rcases List.mem_cons.mp hb with rfl | hb1
      · rfl
      · exfalso
        rw [hpar] at h1
        cases h1
        have hble : b ≤ r := chainAux_le hwf fuel r hplen b hb1
        have : r < b := wf_parent hwf (lt_of_le_of_lt hble hplen) h2
        omega
      · exfalso
        rw [hpar] at h2
        cases h2
        have hale : a ≤ r := chainAux_le hwf fuel r hplen a ha1
        have : r < a := wf_parent hwf (lt_of_le_of_lt hale hplen) h1
        omega
      · exact ih p hplen a ha1 b hb1 r h1 h2

theorem backpropAux_spec {α : Type} (won : Bool) :
    ∀ (fuel : Nat) (t : Arena α) (i : Nat), Wf t → i < arLen t → i < fuel →
      ∀ j, getN (backpropagateAux won fuel t i) j =
        if j ∈ parentChainAux t fuel i then bump won (getN t j) else getN t j := by
  intro fuel
  induction fuel with
  | zero => intro t i _ _ h; cases h
  | succ fuel ih =>
    intro t i hwf hi hfuel j
    have hpeq : ∀ j', (getN (setN t i (bump won)) j').parent = (getN t j').parent :=
      fun j' => (struct_setN_bump t i j').1
    cases hpar : (getN t i).parent with
    | none =>
      simp only [backpropagateAux, parentChainAux, parent_setN_bump, hpar]
      rcases eq_or_ne j i with rfl | hne
      · rw [getN_setN_self _ hi]
        simp
      · rw [getN_setN_ne _ hne]
        simp [hne]
    | some p =>
      have hpi : p < i := wf_parent hwf hi hpar
      have hplen : p < arLen t := lt_trans hpi hi
      have hwf1 : Wf (setN t i (bump won)) := by
        intro j' hj'
        rw [arLen_setN] at hj'
        rw [wfAt_congr (hpeq j')]
        exact hwf j' hj'
      have hplen1 : p < arLen (setN t i (bump won)) := by rw [arLen_setN]; exact hplen
      have hIH := ih (setN t i (bump won)) p hwf1 hplen1 (by omega) j
      have hchain : parentChainAux (setN t i (bump won)) fuel p = parentChainAux t fuel p :=
        chainAux_congr hpeq fuel p
      rw [hchain] at hIH
      simp only [backpropagateAux, parentChainAux, parent_setN_bump, hpar]
      rcases eq_or_ne j i with rfl | hne
      · have hnotin : j ∉ parentChainAux t fuel p := by
          intro hmem
          have := chainAux_le hwf fuel p hplen j hmem
          omega
        rw [hIH, if_neg hnotin, getN_setN_self _ hi]
        simp
      · rw [hIH, getN_setN_ne _ hne]
        by_cases hmem : j ∈ parentChainAux t fuel p
        · rw [if_pos hmem, if_pos (List.mem_cons_of_mem _ hmem)]
        · rw [if_neg hmem, if_neg (by simp [hne, hmem])]

theorem backprop_spec {α : Type} {t : Arena α} {i : Nat} (won : Bool) (hwf : Wf t)
    (hi : i < arLen t) :
    ∀ j, getN (backpropagate t (some i) won) j =
      if j ∈ parentChain t i then bump won (getN t j) else getN t j := by
  intro j
  exact backpropAux_spec won (i + 1) t i hwf hi (Nat.lt_succ_self i) j

/-! ### Invariant structure lemmas -/

theorem inv_len {α : Type} [DecidableEq α] {t : Arena α} (h : Inv t) : 0 < arLen t := h.1

theorem inv_parent0 {α : Type} [DecidableEq α] {t : Arena α} (h : Inv t) :
    (getN t 0).parent = none := h.2.1

theorem inv_nodeOK {α : Type} [DecidableEq α] {t : Arena α} (h : Inv t) {j : Nat}
    (hj : j < arLen t) :
    wfAt t j = true ∧ rootedAt t j = true ∧ childrenOK t j = true ∧ childND t j = true := by
  have h1 := h.2.2 j hj
  unfold nodeOK at h1
  simp only [Bool.and_eq_true] at h1
  exact ⟨h1.1.1.1, h1.1.1.2, h1.1.2, h1.2⟩

theorem inv_wf {α : Type} [DecidableEq α] {t : Arena α} (h : Inv t) : Wf t :=
  fun _ hj => (inv_nodeOK h hj).1

theorem inv_rooted {α : Type} [DecidableEq α] {t : Arena α} (h : Inv t) : Rooted t :=
  fun _ hj => (inv_nodeOK h hj).2.1

theorem childrenOK_spec {α : Type} {t : Arena α} {j : Nat} (h : childrenOK t j = true) :
    ∀ pr ∈ (getN t j).child_nodes,
      j < pr.2 ∧ pr.2 < arLen t ∧ (getN t pr.2).parent = some j := by
  unfold childrenOK at h
  rw [List.all_eq_true] at h
  intro pr hpr
  have h1 := h pr hpr
  simp only [Bool.and_eq_true, decide_eq_true_eq, beq_iff_eq] at h1
  exact ⟨h1.1.1, h1.1.2, h1.2⟩

theorem childrenOK_intro {α : Type} {t : Arena α} {j : Nat}
    (h : ∀ pr ∈ (getN t j).child_nodes,
      j < pr.2 ∧ pr.2 < arLen t ∧ (getN t pr.2).parent = some j) :
    childrenOK t j = true := by
  unfold childrenOK
  rw [List.all_eq_true]
  intro pr hpr
  simp only [Bool.and_eq_true, decide_eq_true_eq, beq_iff_eq]
  exact ⟨⟨(h pr hpr).1, (h pr hpr).2.1⟩, (h pr hpr).2.2⟩

theorem childND_spec {α : Type} [DecidableEq α] {t : Arena α} {j : Nat}
    (h : childND t j = true) :
    ((getN t j).child_nodes.map Prod.fst).Nodup ∧
    ((getN t j).child_nodes.map Prod.snd).Nodup := by
  unfold childND at h
  simp only [Bool.and_eq_true, decide_eq_true_eq] at h
  exact h

theorem childND_intro {α : Type} [DecidableEq α] {t : Arena α} {j : Nat}
    (h1 : ((getN t j).child_nodes.map Prod.fst).Nodup)
    (h2 : ((getN t j).child_nodes.map Prod.snd).Nodup) : childND t j = true := by
  unfold childND
  simp only [Bool.and_eq_true, decide_eq_true_eq]
  exact ⟨h1, h2⟩

theorem nodeOK_intro {α : Type} [DecidableEq α] {t : Arena α} {j : Nat}
    (h1 : wfAt t j = true) (h2 : rootedAt t j = true) (h3 : childrenOK t j = true)
    (h4 : childND t j = true) : nodeOK t j = true := by
  unfold nodeOK
  simp only [Bool.and_eq_true]
  exact ⟨⟨⟨h1, h2⟩, h3⟩, h4⟩

theorem rootedAt_congr {α : Type} {t1 t2 : Arena α} {j : Nat}
    (hp : (getN t1 j).parent = (getN t2 j).parent) : rootedAt t1 j = rootedAt t2 j := by
  unfold rootedAt
  rw [hp]

theorem nodeOK_congr {α : Type} [DecidableEq α] {t1 t2 : Arena α} {j : Nat}
    (hlen : arLen t1 = arLen t2)
    (hp : ∀ j', (getN t1 j').parent = (getN t2 j').parent)
    (hc : ∀ j', (getN t1 j').child_nodes = (getN t2 j').child_nodes) :
    nodeOK t1 j = nodeOK t2 j := by
  unfold nodeOK wfAt rootedAt childrenOK childND
  simp only [hp, hc, hlen]

/-- The expansion of node `i`, conditioned on the random pick. -/
theorem expand_leaf_eq {σ α : Type} [DecidableEq α] (g : Game σ α) {t : Arena α} {i : Nat}
    {s : σ} {pick : Nat} {a : α}
    (hchoice : pyChoice (getN t i).untried_actions pick = some a) :
    expand_leaf g t i s pick = some (expandResult g t i s a, arLen t, g.next_state s a) := by
  unfold expand_leaf
  rw [hchoice]

theorem expandResult_len {σ α : Type} [DecidableEq α] (g : Game σ α) (t : Arena α)
    (i : Nat) (s : σ) (a : α) : arLen (expandResult g t i s a) = arLen t + 1 := by
  unfold expandResult
  rw [arLen_append1, arLen_setN]

theorem expandResult_getN_new {σ α : Type} [DecidableEq α] (g : Game σ α) (t : Arena α)
    (i : Nat) (s : σ) (a : α) :
    getN (expandResult g t i s a) (arLen t) =
      ⟨some i, some a, [], g.legal_actions (g.next_state s a), 0, 0⟩ := by
  unfold expandResult
  have h := getN_append_self
    (setN t i (fun n =>
      { n with untried_actions := n.untried_actions.erase a,
               child_nodes := dictInsert n.child_nodes a (arLen t) }))
    (⟨some i, some a, [], g.legal_actions (g.next_state s a), 0, 0⟩ : MCTSNode α)
  rwa [arLen_setN] at h

theorem expandResult_getN_other {σ α : Type} [DecidableEq α] (g : Game σ α) {t : Arena α}
    (i : Nat) (s : σ) (a : α) {j : Nat} (hj : j < arLen t) (hne : j ≠ i) :
    getN (expandResult g t i s a) j = getN t j := by
  unfold expandResult
  rw [getN_append_lt _ (by rwa [arLen_setN]), getN_setN_ne _ hne]

theorem expandResult_getN_self {σ α : Type} [DecidableEq α] (g : Game σ α) {t : Arena α}
    (i : Nat) (s : σ) (a : α) (hi : i < arLen t) :
    getN (expandResult g t i s a) i =
      { getN t i with untried_actions := (getN t i).untried_actions.erase a,
                      child_nodes := dictInsert (getN t i).child_nodes a (arLen t) } := by
  unfold expandResult
  rw [getN_append_lt _ (by rwa [arLen_setN]), getN_setN_self _ hi]

theorem expandResult_parent_pres {σ α : Type} [DecidableEq α] (g : Game σ α) {t : Arena α}
    (i : Nat) (s : σ) (a : α) {j : Nat} (hj : j < arLen t) :
    (getN (expandResult g t i s a) j).parent = (getN t j).parent := by
  rcases eq_or_ne j i with rfl | hne
  · rw [expandResult_getN_self g j s a hj]
  · rw [expandResult_getN_other g i s a hj hne]

theorem expandResult_visits {σ α : Type} [DecidableEq α] (g : Game σ α) {t : Arena α}
    (i : Nat) (s : σ) (a : α) {j : Nat} (hj : j < arLen t) :
    (getN (expandResult g t i s a) j).visits = (getN t j).visits := by
  rcases eq_or_ne j i with rfl | hne
  · rw [expandResult_getN_self g j s a hj]
  · rw [expandResult_getN_other g i s a hj hne]

theorem expandResult_inv {σ α : Type} [DecidableEq α] (g : Game σ α) {t : Arena α}
    {i : Nat} (s : σ) (a : α) (hInv : Inv t) (hi : i < arLen t) :
    Inv (expandResult g t i s a) := by
  have hlen := expandResult_len g t i s a
  refine ⟨by omega, ?_, ?_⟩
  · rw [expandResult_parent_pres g i s a (inv_len hInv)]
    exact inv_parent0 hInv
  · intro j hj
    rw [hlen] at hj
    rcases Nat.lt_succ_iff_lt_or_eq.mp hj with hjlt | hjeq
    · -- an old node
      have hpe := expandResult_parent_pres g i s a hjlt
      refine nodeOK_intro ?_ ?_ ?_ ?_
      · rw [wfAt_congr hpe]; exact (inv_nodeOK hInv hjlt).1
      · rw [rootedAt_congr hpe]; exact (inv_nodeOK hInv hjlt).2.1
      · refine childrenOK_intro ?_
        intro pr hpr
        rcases eq_or_ne j i with rfl | hne
        · rw [expandResult_getN_self g j s a hjlt] at hpr
          simp only at hpr
          rcases dictInsert_mem hpr with hold | hnew
          · obtain ⟨h1, h2, h3⟩ := childrenOK_spec (inv_nodeOK hInv hjlt).2.2.1 pr hold
            exact ⟨h1, by omega, by rw [expandResult_parent_pres g j s a h2]; exact h3⟩
          · subst hnew
            refine ⟨hjlt, by omega, ?_⟩
            rw [expandResult_getN_new g t j s a]
        · rw [expandResult_getN_other g i s a hjlt hne] at hpr
          obtain ⟨h1, h2, h3⟩ := childrenOK_spec (inv_nodeOK hInv hjlt).2.2.1 pr hpr
          exact ⟨h1, by omega, by rw [expandResult_parent_pres g i s a h2]; exact h3⟩
      · refine childND_intro ?_ ?_
        · rcases eq_or_ne j i with rfl | hne
          · rw [expandResult_getN_self g j s a hjlt]
            exact dictInsert_keys_nodup (childND_spec (inv_nodeOK hInv hjlt).2.2.2).1
          · rw [expandResult_getN_other g i s a hjlt hne]
            exact (childND_spec (inv_nodeOK hInv hjlt).2.2.2).1
        · rcases eq_or_ne j i with rfl | hne
          · rw [expandResult_getN_self g j s a hjlt]
            refine dictInsert_vals_nodup (childND_spec (inv_nodeOK hInv hjlt).2.2.2).2 ?_
            intro hmem
            rcases List.mem_map.mp hmem with ⟨pr, hpr, hpr2⟩
            have := (childrenOK_spec (inv_nodeOK hInv hjlt).2.2.1 pr hpr).2.1
            omega
          · rw [expandResult_getN_other g i s a hjlt hne]
            exact (childND_spec (inv_nodeOK hInv hjlt).2.2.2).2
    · -- the new child
      subst hjeq
      have hnew := expandResult_getN_new g t i s a
      refine nodeOK_intro ?_ ?_ ?_ ?_
      · unfold wfAt
        rw [hnew]
        simpa [Option.all] using hi
      · unfold rootedAt
        rw [hnew]
        simp
      · refine childrenOK_intro ?_
        intro pr hpr
        rw [hnew] at hpr
        cases hpr
      · refine childND_intro ?_ ?_ <;> rw [hnew] <;> simp

theorem expandResult_sum {σ α : Type} [DecidableEq α] (g : Game σ α) {t : Arena α}
    {i : Nat} (s : σ) (a : α) (hInv : Inv t) (hi : i < arLen t) :
    rootChildSum (expandResult g t i s a) ≤ rootChildSum t := by
  unfold rootChildSum
  have h0 : (0 : Nat) < arLen t := inv_len hInv
  have hvis : ∀ c ∈ (getN t 0).child_nodes.map Prod.snd,
      (getN (expandResult g t i s a) c).visits = (getN t c).visits := by
    intro c hc
    rcases List.mem_map.mp hc with ⟨pr, hpr, hpr2⟩
    have hclt := (childrenOK_spec (inv_nodeOK hInv h0).2.2.1 pr hpr).2.1
    exact expandResult_visits g i s a (by omega)
  rcases eq_or_ne (0 : Nat) i with rfl | hne
  · rw [expandResult_getN_self g 0 s a hi]
    simp only
    have hd := dictInsert_sum_le (getN t 0).child_nodes a (arLen t)
      (fun c => (getN (expandResult g t 0 s a) c).visits)
    have hnewv : (getN (expandResult g t 0 s a) (arLen t)).visits = 0 := by
      rw [expandResult_getN_new g t 0 s a]
    rw [List.map_map, List.map_map] at hd ⊢
    calc (((dictInsert (getN t 0).child_nodes a (arLen t)).map
            ((fun c => (getN (expandResult g t 0 s a) c).visits) ∘ Prod.snd)).sum)
      ≤ ((getN t 0).child_nodes.map
            ((fun c => (getN (expandResult g t 0 s a) c).visits) ∘ Prod.snd)).sum +
          (getN (expandResult g t 0 s a) (arLen t)).visits := hd
    _ = ((getN t 0).child_nodes.map ((fun c => (getN t c).visits) ∘ Prod.snd)).sum := by
        rw [hnewv, Nat.add_zero]
        congr 1
        refine List.map_eq_map_iff.mpr ?_
        intro pr hpr
        simp only [Function.comp_apply]
        exact hvis pr.2 (List.mem_map.mpr ⟨pr, hpr, rfl⟩)
  · rw [expandResult_getN_other g i s a h0 hne]
    rw [List.map_map, List.map_map]
    apply le_of_eq
    refine congrArg List.sum ?_
    refine List.map_eq_map_iff.mpr ?_
    intro pr hpr
    simp only [Function.comp_apply]
    exact hvis pr.2 (List.mem_map.mpr ⟨pr, hpr, rfl⟩)

/-- Indices reached by the traversal stay inside the arena. -/
theorem traverseAux_lt {σ α : Type} [DecidableEq α] {g : Game σ α} {sq lg : Score → Score}
    {botId : Nat} :
    ∀ (fuel : Nat) (t : Arena α) (i : Nat) (s : σ) (res : Nat × σ), Inv t → i < arLen t →
      traverseAux g sq lg botId fuel t i s = some res → res.1 < arLen t := by
  intro fuel
  induction fuel with
  | zero => intro t i s res _ _ h; cases h
  | succ fuel ih =>
    intro t i s res hInv hi h
    simp only [traverseAux] at h
    by_cases hend : g.is_ended s = true
    · rw [if_pos hend] at h
      cases h
      exact hi
    · rw [if_neg hend] at h
      cases hfg : guardPick sq lg botId t i with
      | some best =>
        rw [hfg] at h
        simp only [Option.some.injEq] at h
        have hbest : best ∈ (getN t i).child_nodes.map Prod.snd := by
          unfold guardPick at hfg
          by_cases hunt : 0 < (getN t i).untried_actions.length
          · rw [if_pos hunt] at hfg
            exact List.mem_of_mem_filter (pyMaxBy_mem hfg)
          · rw [if_neg hunt] at hfg
            cases hfg
        rcases List.mem_map.mp hbest with ⟨pr, hpr, hpr2⟩
        have := (childrenOK_spec (inv_nodeOK hInv hi).2.2.1 pr hpr).2.1
        rw [← h]
        simpa [hpr2] using this
      | none =>
        rw [hfg] at h
        simp only at h
        by_cases hemp : ((getN t i).child_nodes.map Prod.snd).isEmpty = true
        · rw [if_pos hemp] at h
          cases h
          exact hi
        · rw [if_neg hemp] at h
          cases hdp : descendPick sq lg botId t i with
          | none =>
            rw [hdp] at h
            simp only at h
            cases h
            exact hi
          | some j =>
            rw [hdp] at h
            simp only at h
            have hj : j ∈ (getN t i).child_nodes.map Prod.snd := pyMaxBy_mem hdp
            rcases List.mem_map.mp hj with ⟨pr, hpr, hpr2⟩
            have hjlt : j < arLen t := by
              have := (childrenOK_spec (inv_nodeOK hInv hi).2.2.1 pr hpr).2.1
              simpa [hpr2] using this
            cases hpa : (getN t j).parent_action with
            | none => rw [hpa] at h; cases h
            | some a =>
              rw [hpa] at h
              exact ih t j (g.next_state s a) res hInv hjlt h

theorem traverse_nodes_some {σ α : Type} [DecidableEq α] {g : Game σ α}
    {sq lg : Score → Score} {botId fuel : Nat} {t : Arena α} {i : Nat} {s : σ} {ni : Nat}
    (h : traverse_nodes g sq lg botId fuel t i s = some ni) :
    ∃ s1, traverseAux g sq lg botId fuel t i s = some (ni, s1) := by
  unfold traverse_nodes at h
  cases htr : traverseAux g sq lg botId fuel t i s with
  | none => rw [htr] at h; cases h
  | some pr =>
    rw [htr] at h
    simp only [Option.some.injEq] at h
    exact ⟨pr.2, by rw [← h]⟩

/-- A list of distinct indices, all satisfying `P`, meets a chain on which `P`
identifies elements uniquely at most once; so bumping along the chain raises
the sum over the list by at most one. -/
theorem sum_bump_le (L : List Nat) (f g : Nat → Nat) (ch : List Nat) (P : Nat → Prop)
    (hfg : ∀ c ∈ L, g c = f c + (if c ∈ ch then 1 else 0))
    (hnd : L.Nodup) (hP : ∀ c ∈ L, P c)
    (hinj : ∀ a ∈ ch, ∀ b ∈ ch, P a → P b → a = b) :
    (L.map g).sum ≤ (L.map f).sum + 1 := by
  induction L with
  | nil => simp
  | cons c L ihL =>
    simp only [List.nodup_cons] at hnd
    have hPc := hP c (List.mem_cons_self _ _)
    have hPL : ∀ x ∈ L, P x := fun x hx => hP x (List.mem_cons_of_mem _ hx)
    simp only [List.map_cons, List.sum_cons]
    by_cases hc : c ∈ ch
    · have hnone : ∀ x ∈ L, g x = f x := by
        intro x hx
        have := hfg x (List.mem_cons_of_mem _ hx)
        by_cases hxch : x ∈ ch
        · exact absurd (hinj c hc x hxch hPc (hPL x hx)) (by
            intro he
            exact hnd.1 (he ▸ hx))
        · simpa [hxch] using this
      have heq : L.map g = L.map f := List.map_eq_map_iff.mpr hnone
      have hgc := hfg c (List.mem_cons_self _ _)
      rw [heq, hgc, if_pos hc]
      omega
    · have hgc := hfg c (List.mem_cons_self _ _)
      rw [hgc, if_neg hc]
      have := ihL (fun x hx => hfg x (List.mem_cons_of_mem _ hx)) hnd.2 hPL
      omega

/-- The initial arena of `think` satisfies the structural invariant. -/
theorem inv_init {σ α : Type} [DecidableEq α] (g : Game σ α) (s0 : σ) :
    Inv [rootNode g s0] := by
  refine ⟨by simp [arLen], rfl, ?_⟩
  intro j hj
  have hj0 : j = 0 := by simpa [arLen] using hj
  subst hj0
  rfl

theorem childvisits_init {σ α : Type} (g : Game σ α) (s0 : σ) :
    ChildVisits [rootNode g s0] := by
  intro i hi pr hpr
  have hi0 : i = 0 := by simpa [arLen] using hi
  subst hi0
  simp [getN, rootNode] at hpr

/-! ### Backpropagation wrappers at the invariant level -/

theorem backpropagate_some {α : Type} (t : Arena α) (i : Nat) (won : Bool) :
    backpropagate t (some i) won = backpropagateAux won (i + 1) t i := rfl

theorem backprop_inv {α : Type} [DecidableEq α] {t : Arena α} {i : Nat} (won : Bool)
    (hInv : Inv t) : Inv (backpropagate t (some i) won) := by
  rw [backpropagate_some]
  have hlen := backpropAux_len won (i + 1) t i
  refine ⟨by rw [hlen]; exact hInv.1, ?_, ?_⟩
  · rw [(backpropAux_struct won (i + 1) t i 0).1]
    exact hInv.2.1
  · intro j hj
    rw [hlen] at hj
    rw [nodeOK_congr hlen (fun j' => (backpropAux_struct won (i + 1) t i j').1)
      (fun j' => (backpropAux_struct won (i + 1) t i j').2.1)]
    exact hInv.2.2 j hj

theorem backprop_visits0 {α : Type} [DecidableEq α] {t : Arena α} {i : Nat} (won : Bool)
    (hInv : Inv t) (hi : i < arLen t) :
    (getN (backpropagate t (some i) won) 0).visits = (getN t 0).visits + 1 := by
  have hspec := backprop_spec won (inv_wf hInv) hi 0
  have h0 : 0 ∈ parentChain t i :=
    chainAux_root (inv_wf hInv) (inv_rooted hInv) (i + 1) i hi (Nat.lt_succ_self i)
  rw [hspec, if_pos h0]
  rfl

theorem backprop_sum {α : Type} [DecidableEq α] {t : Arena α} {i : Nat} (won : Bool)
    (hInv : Inv t) (hi : i < arLen t) :
    rootChildSum (backpropagate t (some i) won) ≤ rootChildSum t + 1 := by
  have h0 : (0 : Nat) < arLen t := inv_len hInv
  have hch : (getN (backpropagate t (some i) won) 0).child_nodes =
      (getN t 0).child_nodes := by
    rw [backpropagate_some]
    exact (backpropAux_struct won (i + 1) t i 0).2.1
  unfold rootChildSum
  rw [hch]
  have hvals : ∀ c ∈ (getN t 0).child_nodes.map Prod.snd, (getN t c).parent = some 0 := by
    intro c hc
    rcases List.mem_map.mp hc with ⟨pr, hpr, h2⟩
    have h3 := (childrenOK_spec (inv_nodeOK hInv h0).2.2.1 pr hpr).2.2
    exact h2 ▸ h3
  have hnd := (childND_spec (inv_nodeOK hInv h0).2.2.2).2
  refine sum_bump_le ((getN t 0).child_nodes.map Prod.snd)
    (fun c => (getN t c).visits)
    (fun c => (getN (backpropagate t (some i) won) c).visits)
    (parentChain t i) (fun c => (getN t c).parent = some 0) ?_ hnd hvals ?_
  · intro c _
    dsimp only
    have hspec := backprop_spec won (inv_wf hInv) hi c
    by_cases hmem : c ∈ parentChain t i
    · rw [hspec, if_pos hmem, if_pos hmem]
      rfl
    · rw [hspec, if_neg hmem, if_neg hmem]
      omega
  · intro a ha b hb hPa hPb
    exact chainAux_inj (inv_wf hInv) (i + 1) i hi a ha b hb 0 hPa hPb

/-! ### The per-iteration preservation theorem -/

theorem thinkIter_step {σ α : Type} [DecidableEq α] {g : Game σ α} {sq lg : Score → Score}
    {botId : Nat} {s0 : σ} {rnd : Nat → Nat} {fuel : Nat} {t t1 : Arena α}
    (hInv : Inv t) (hCV : ChildVisits t)
    (h : thinkIter g sq lg botId s0 rnd fuel t = some t1) :
    Inv t1 ∧ ChildVisits t1 ∧ (getN t1 0).visits = (getN t 0).visits + 1 ∧
      rootChildSum t1 ≤ rootChildSum t + 1 := by
  unfold thinkIter at h
  cases htr : traverse_nodes g sq lg botId (arLen t + 1) t 0 s0 with
  | none => rw [htr] at h; cases h
  | some ni =>
    rw [htr] at h
    dsimp only at h
    obtain ⟨s1, htrAux⟩ := traverse_nodes_some htr
    have hni : ni < arLen t :=
      traverseAux_lt (arLen t + 1) t 0 s0 (ni, s1) hInv (inv_len hInv) htrAux
    by_cases hunt : 0 < (getN t ni).untried_actions.length
    · -- expansion branch
      rw [if_pos hunt] at h
      have hne : (getN t ni).untried_actions ≠ [] := by
        intro he
        rw [he] at hunt
        simp at hunt
      obtain ⟨a, ha⟩ := pyChoice_isSome (rnd 0) hne
      rw [expand_leaf_eq g ha] at h
      dsimp only at h
      cases hro : rollout g (fun k => rnd (k + 1)) fuel (g.next_state s0 a) with
      | none => rw [hro] at h; cases h
      | some ts =>
        rw [hro] at h
        dsimp only at h
        cases hw : is_win g ts botId with
        | none => rw [hw] at h; cases h
        | some won =>
          rw [hw] at h
          simp only [Option.some.injEq] at h
          subst h
          have hInvE : Inv (expandResult g t ni s0 a) := expandResult_inv g s0 a hInv hni
          have hlenE : arLen (expandResult g t ni s0 a) = arLen t + 1 :=
            expandResult_len g t ni s0 a
          have hL : arLen t < arLen (expandResult g t ni s0 a) := by omega
          refine ⟨backprop_inv won hInvE, ?_, ?_, ?_⟩
          · -- ChildVisits
            intro i2 hi2 pr hpr
            have hlen1 : arLen (backpropagate (expandResult g t ni s0 a)
                (some (arLen t)) won) = arLen t + 1 := by
              rw [backpropagate_some, backpropAux_len won _ _ _, hlenE]
            have hch : (getN (backpropagate (expandResult g t ni s0 a)
                  (some (arLen t)) won) i2).child_nodes =
                (getN (expandResult g t ni s0 a) i2).child_nodes := by
              rw [backpropagate_some]
              exact (backpropAux_struct won _ _ _ i2).2.1
            rw [hch] at hpr
            rw [hlen1] at hi2
            have hmono : ∀ c, (getN (expandResult g t ni s0 a) c).visits ≤
                (getN (backpropagate (expandResult g t ni s0 a)
                  (some (arLen t)) won) c).visits := by
              intro c
              rw [backpropagate_some]
              exact backpropAux_visits_ge won _ _ _ c
            by_cases hi2L : i2 = arLen t
            · subst hi2L
              rw [expandResult_getN_new g t ni s0 a] at hpr
              cases hpr
            · have hi2lt : i2 < arLen t := by omega
              by_cases hi2ni : i2 = ni
              · subst hi2ni
                rw [expandResult_getN_self g i2 s0 a hni] at hpr
                dsimp only at hpr
                rcases dictInsert_mem hpr with hold | hnewpr
                · have hprlt := (childrenOK_spec (inv_nodeOK hInv hni).2.2.1 pr hold).2.1
                  have h1 : 1 ≤ (getN t pr.2).visits := hCV i2 hi2lt pr hold
                  have h2 : (getN (expandResult g t i2 s0 a) pr.2).visits =
                      (getN t pr.2).visits := expandResult_visits g i2 s0 a hprlt
                  have h3 := hmono pr.2
                  omega
                · subst hnewpr
                  have hspec := backprop_spec won (inv_wf hInvE) hL (arLen t)
                  have hhead : arLen t ∈ parentChain (expandResult g t i2 s0 a) (arLen t) :=
                    chainAux_head _ (arLen t) (arLen t)
                  simp only
                  rw [hspec, if_pos hhead]
                  simp [bump]
              · rw [expandResult_getN_other g ni s0 a hi2lt hi2ni] at hpr
                have hprlt := (childrenOK_spec (inv_nodeOK hInv hi2lt).2.2.1 pr hpr).2.1
                have h1 : 1 ≤ (getN t pr.2).visits := hCV i2 hi2lt pr hpr
                have h2 : (getN (expandResult g t ni s0 a) pr.2).visits =
                    (getN t pr.2).visits := expandResult_visits g ni s0 a hprlt
                have h3 := hmono pr.2
                omega
          · -- root visits
            rw [backprop_visits0 won hInvE hL,
              expandResult_visits g ni s0 a (inv_len hInv)]
          · -- root child sum
            have h1 := backprop_sum won hInvE hL
            have h2 := expandResult_sum g s0 a hInv hni
            omega
    · -- no expansion: backpropagate from the traversed node
      rw [if_neg hunt] at h
      cases hro : rollout g (fun k => rnd (k + 1)) fuel s0 with
      | none => rw [hro] at h; cases h
      | some ts =>
        rw [hro] at h
        dsimp only at h
        cases hw : is_win g ts botId with
        | none => rw [hw] at h; cases h
        | some won =>
          rw [hw] at h
          simp only [Option.some.injEq] at h
          subst h
          refine ⟨backprop_inv won hInv, ?_, backprop_visits0 won hInv hni,
            backprop_sum won hInv hni⟩
          intro i2 hi2 pr hpr
          have hlen1 : arLen (backpropagate t (some ni) won) = arLen t := by
            rw [backpropagate_some]
            exact backpropAux_len won _ _ _
          have hch : (getN (backpropagate t (some ni) won) i2).child_nodes =
              (getN t i2).child_nodes := by
            rw [backpropagate_some]
            exact (backpropAux_struct won _ _ _ i2).2.1
          rw [hch] at hpr
          rw [hlen1] at hi2
          have h1 : 1 ≤ (getN t pr.2).visits := hCV i2 hi2 pr hpr
          have h3 : (getN t pr.2).visits ≤
              (getN (backpropagate t (some ni) won) pr.2).visits := by
            rw [backpropagate_some]
            exact backpropAux_visits_ge won _ _ _ pr.2
          omega

/-- Preservation along the whole iteration loop. -/
theorem thinkLoop_all {σ α : Type} [DecidableEq α] {g : Game σ α} {sq lg : Score → Score}
    {botId : Nat} {s0 : σ} {R : Nat → Nat → Nat} {fuel : Nat} :
    ∀ (N : Nat) (t tN : Arena α), Inv t → ChildVisits t →
      thinkLoop g sq lg botId s0 R fuel N t = some tN →
      Inv tN ∧ ChildVisits tN ∧ (getN tN 0).visits = (getN t 0).visits + N ∧
        rootChildSum tN ≤ rootChildSum t + N := by
  intro N
  induction N with
  | zero =>
    intro t tN h1 h2 h
    simp only [thinkLoop, Option.some.injEq] at h
    subst h
    exact ⟨h1, h2, rfl, le_refl _⟩
  | succ N ih =>
    intro t tN h1 h2 h
    simp only [thinkLoop] at h
    cases hl : thinkLoop g sq lg botId s0 R fuel N t with
    | none => rw [hl] at h; cases h
    | some tmid =>
      rw [hl] at h
      obtain ⟨i1, i2, i3, i4⟩ := ih t tmid h1 h2 hl
      obtain ⟨j1, j2, j3, j4⟩ := thinkIter_step i1 i2 h
      exact ⟨j1, j2, by omega, by omega⟩

/-! ### The claims -/

/-- C1: the claim says that in every iteration of `think` the state handed to
expansion (and, without expansion, to rollout) is the state reached by
advancing a local copy of the initial state along the traversal path, with
`traverse_nodes` returning its chosen node together with that state.  The code
does not do this (it contradicts the docstring of `traverse_nodes`, which
promises to return the state): `traverse_nodes` returns only the node, so
`think`'s local `state` is still the initial state at the expansion.  This
theorem evaluates the code at a failing input, the chain game `gChain` with
two iterations and all random picks 0: in iteration 2 the traversal reaches
node 1 with its local state advanced to 1, but the node then expanded (index
2, produced by action 2 from node 1) received the untried actions of
`next_state 0 2` (namely `[7]`) instead of those of `next_state 1 2` (namely
`[]`). -/
theorem c1_traversal_state_bug :
    thinkLoop gChain sId sId 1 0 (fun _ _ => 0) 5 1 [rootNode gChain 0] = some cArena1 ∧
    traverseAux gChain sId sId 1 (arLen cArena1 + 1) cArena1 0 0 = some (1, 1) ∧
    thinkLoop gChain sId sId 1 0 (fun _ _ => 0) 5 2 [rootNode gChain 0] = some cArena2 ∧
    (getN cArena2 2).parent = some 1 ∧
    (getN cArena2 2).parent_action = some 2 ∧
    (getN cArena2 2).untried_actions = gChain.legal_actions (gChain.next_state 0 2) ∧
    gChain.legal_actions (gChain.next_state 0 2) ≠
      gChain.legal_actions (gChain.next_state 1 2) := by
  decide

/-- C2: the claim says the perspective flag `is_opponent` is true exactly when
the edge into the scored node was taken by the opponent of `bot_identity`.
The code instead passes the integer `bot_identity` itself as the flag
(contradicting the declared type `is_opponent: bool` and the docstring of
`ucb`), and a Python int 1 or 2 is always truthy, so exploitation is always
inverted.  Failing input: `bot_identity = 1 = current_player`, so the edges
into both root children of `t2` are taken by the deciding player itself and
the claim mandates `is_opponent = false`; yet the flag the code passes
(`pyTruthy 1`) is true, the inversion changes the score of child 1, and the
traversal descends to child 1 while the maximal-UCB child under the mandated
flag is child 2. -/
theorem c2_perspective_bug :
    gStep.current_player 0 = 1 ∧
    pyTruthy (gStep.current_player 0) = true ∧
    ucb sId sId t2 1 (pyTruthy 1) ≠ ucb sId sId t2 1 false ∧
    traverse_nodes gStep sId sId 1 4 t2 0 0 = some 1 ∧
    pyMaxBy (fun j => ucb sId sId t2 j false)
      ((getN t2 0).child_nodes.map Prod.snd) = some 2 ∧
    (1 : Nat) ≠ 2 := by
  decide

/-- C3 counterexample: the claim says that whenever the current node has a
child with untried actions, traversal immediately returns the maximal-UCB
child among those children, regardless of whether the current node itself
still has untried actions.  In arena `t3` the root has no untried actions;
its children with untried actions are exactly `[1]`, yet the traversal
descends past the guard (which the code only runs when the *current* node has
untried actions), advances the state, and returns node 2. -/
theorem c3_counterexample :
    ((getN t3 0).child_nodes.map Prod.snd).filter
      (fun j => decide (0 < (getN t3 j).untried_actions.length)) = [1] ∧
    (getN t3 0).untried_actions.length = 0 ∧
    traverseAux gStep sId sId 1 4 t3 0 0 = some (2, 2) ∧
    traverse_nodes gStep sId sId 1 4 t3 0 0 = some 2 ∧
    (2 : Nat) ≠ 1 := by
  decide

/-- C3 as amended: for every call of traversal on a non-terminal state, if the
current node ITSELF still has untried actions and has at least one child that
still has untried actions, traversal immediately returns the maximum-UCB
child among those children, with the state unchanged.  (`hpos` asks the UCB
scores involved to have positive denominators, which identifies the `Score`
comparison with the rational order; every score the search computes has a
positive denominator.) -/
theorem c3_guarded_return {σ α : Type} [DecidableEq α] (g : Game σ α)
    (sq lg : Score → Score) (botId fuel : Nat) (t : Arena α) (i : Nat) (s : σ) (b : Nat)
    (hend : g.is_ended s = false)
    (hunt : 0 < (getN t i).untried_actions.length)
    (hmax : pyMaxBy (fun j => ucb sq lg t j (pyTruthy botId))
        (((getN t i).child_nodes.map Prod.snd).filter
          (fun j => decide (0 < (getN t j).untried_actions.length))) = some b)
    (hpos : ∀ c ∈ ((getN t i).child_nodes.map Prod.snd).filter
        (fun j => decide (0 < (getN t j).untried_actions.length)),
      0 < (ucb sq lg t c (pyTruthy botId)).den) :
    traverseAux g sq lg botId (fuel + 1) t i s = some (b, s) ∧
    b ∈ ((getN t i).child_nodes.map Prod.snd).filter
      (fun j => decide (0 < (getN t j).untried_actions.length)) ∧
    ∀ c ∈ ((getN t i).child_nodes.map Prod.snd).filter
        (fun j => decide (0 < (getN t j).untried_actions.length)),
      Score.ble (ucb sq lg t c (pyTruthy botId)) (ucb sq lg t b (pyTruthy botId)) = true := by
  have hguard : guardPick sq lg botId t i = some b := by
    unfold guardPick
    rw [if_pos hunt]
    exact hmax
  refine ⟨?_, pyMaxBy_mem hmax, pyMaxBy_ble hmax hpos⟩
  simp only [traverseAux]
  rw [if_neg (by simp [hend]), hguard]

theorem c3_guarded_return_witness :
    traverseAux gStep sId sId 1 4 t3b 0 0 = some (1, 0) ∧
    1 ∈ ((getN t3b 0).child_nodes.map Prod.snd).filter
      (fun j => decide (0 < (getN t3b j).untried_actions.length)) ∧
    ∀ c ∈ ((getN t3b 0).child_nodes.map Prod.snd).filter
        (fun j => decide (0 < (getN t3b j).untried_actions.length)),
      Score.ble (ucb sId sId t3b c (pyTruthy 1)) (ucb sId sId t3b 1 (pyTruthy 1)) = true :=
  c3_guarded_return gStep sId sId 1 3 t3b 0 0 1 (by decide) (by decide) (by decide)
    (by decide)

/-- C4: the UCB score of a node with a parent equals the reference definition
of the specification (`ucb_spec`, with exploration constant 2): for
`visits = 0` it is `sqrt(log(parent.visits + 1))` regardless of `wins`;
otherwise it is `exploitation + exploration` with `exploitation = wins/visits`
inverted to `1 - wins/visits` exactly when `is_opponent` holds and
`exploration = 2 * sqrt(log(parent.visits) / visits)`. -/
theorem c4_ucb_matches_reference {α : Type} (sq lg : Score → Score) (t : Arena α)
    (i p : Nat) (flag : Bool) (hp : (getN t i).parent = some p) :
    ucb sq lg t i flag =
      ucb_spec sq lg (Score.ofInt 2) (getN t p).visits (getN t i).visits
        (getN t i).wins flag := by
  simp only [ucb, ucb_spec, explore_faction, hp]

theorem c4_ucb_matches_reference_witness :
    ucb sId sId t6 1 true =
      ucb_spec sId sId (Score.ofInt 2) (getN t6 0).visits (getN t6 1).visits
        (getN t6 1).wins true ∧
    ucb sId sId t6 1 false =
      ucb_spec sId sId (Score.ofInt 2) (getN t6 0).visits (getN t6 1).visits
        (getN t6 1).wins false :=
  ⟨c4_ucb_matches_reference sId sId t6 1 0 true (by decide),
   c4_ucb_matches_reference sId sId t6 1 0 false (by decide)⟩

/-- C5: for every starting node and boolean `won`, in a well-formed rooted
arena, `backpropagate` increments `visits` by exactly 1 and adjusts `wins` by
exactly +1 (win) or -1 (loss) at every node on the parent chain from the
starting node up to and including the root (node 0 lies on the chain), leaves
every node off the chain untouched, and `backpropagate(None, won)` is a no-op. -/
theorem c5_backpropagate {α : Type} (t : Arena α) (i : Nat) (won : Bool)
    (hwf : Wf t) (hr : Rooted t) (hi : i < arLen t) :
    backpropagate t none won = t ∧
    arLen (backpropagate t (some i) won) = arLen t ∧
    (∀ j, j ∈ parentChain t i →
      (getN (backpropagate t (some i) won) j).visits = (getN t j).visits + 1 ∧
      (getN (backpropagate t (some i) won) j).wins =
        (getN t j).wins + (if won then 1 else -1)) ∧
    (∀ j, j ∉ parentChain t i →
      getN (backpropagate t (some i) won) j = getN t j) ∧
    i ∈ parentChain t i ∧ 0 ∈ parentChain t i := by
  refine ⟨rfl, ?_, ?_, ?_, chainAux_head t i i, ?_⟩
  · rw [backpropagate_some]
    exact backpropAux_len won _ _ _
  · intro j hj
    rw [backprop_spec won hwf hi j, if_pos hj]
    exact ⟨rfl, rfl⟩
  · intro j hj
    rw [backprop_spec won hwf hi j, if_neg hj]
  · exact chainAux_root hwf hr (i + 1) i hi (Nat.lt_succ_self i)

theorem c5_backpropagate_witness :
    backpropagate t5 none true = t5 ∧
    arLen (backpropagate t5 (some 1) true) = arLen t5 ∧
    (∀ j, j ∈ parentChain t5 1 →
      (getN (backpropagate t5 (some 1) true) j).visits = (getN t5 j).visits + 1 ∧
      (getN (backpropagate t5 (some 1) true) j).wins =
        (getN t5 j).wins + (if true then 1 else -1)) ∧
    (∀ j, j ∉ parentChain t5 1 →
      getN (backpropagate t5 (some 1) true) j = getN t5 j) ∧
    1 ∈ parentChain t5 1 ∧ 0 ∈ parentChain t5 1 :=
  c5_backpropagate t5 1 true (by decide) (by decide) (by decide)

/-- C6: for every node with at least one untried action (the chosen action
`a` being whichever one the random pick selects), expansion removes exactly
one action from the node's untried list, creates exactly one new node whose
parent is that node, whose `parent_action` is the removed action and whose
untried actions are the legal actions of the state obtained by applying the
action, registers it in `child_nodes` under that action, leaves every other
node untouched, and — provided the untried actions are duplicate-free and
were disjoint from the children keys — keeps the children keys disjoint from
the untried actions, so no action is ever expanded twice. -/
theorem c6_expand_postconditions {σ α : Type} [DecidableEq α] (g : Game σ α) (t : Arena α)
    (i : Nat) (s : σ) (pick : Nat) (a : α) (hi : i < arLen t)
    (hchoice : pyChoice (getN t i).untried_actions pick = some a)
    (hnd : (getN t i).untried_actions.Nodup)
    (hdisj : ∀ k, dictGet (getN t i).child_nodes k ≠ none →
      k ∉ (getN t i).untried_actions) :
    ∃ t2, expand_leaf g t i s pick = some (t2, arLen t, g.next_state s a) ∧
      arLen t2 = arLen t + 1 ∧
      (getN t2 (arLen t)).parent = some i ∧
      (getN t2 (arLen t)).parent_action = some a ∧
      (getN t2 (arLen t)).untried_actions = g.legal_actions (g.next_state s a) ∧
      (getN t2 (arLen t)).child_nodes = [] ∧
      (getN t2 i).untried_actions = (getN t i).untried_actions.erase a ∧
      (getN t2 i).untried_actions.length + 1 = (getN t i).untried_actions.length ∧
      dictGet (getN t2 i).child_nodes a = some (arLen t) ∧
      (∀ k, k ≠ a → dictGet (getN t2 i).child_nodes k = dictGet (getN t i).child_nodes k) ∧
      (∀ j, j < arLen t → j ≠ i → getN t2 j = getN t j) ∧
      (∀ k, dictGet (getN t2 i).child_nodes k ≠ none →
        k ∉ (getN t2 i).untried_actions) := by
  have hmem : a ∈ (getN t i).untried_actions := pyChoice_mem hchoice
  have hself := expandResult_getN_self g i s a hi
  refine ⟨expandResult g t i s a, expand_leaf_eq g hchoice, expandResult_len g t i s a,
    ?_, ?_, ?_, ?_, ?_, ?_, ?_, ?_, ?_, ?_⟩
  · rw [expandResult_getN_new g t i s a]
  · rw [expandResult_getN_new g t i s a]
  · rw [expandResult_getN_new g t i s a]
  · rw [expandResult_getN_new g t i s a]
  · rw [hself]
  · rw [hself]
    exact List.length_erase_add_one hmem
  · rw [hself]
    exact dictGet_insert_self _ _ _
  · intro k hk
    rw [hself]
    exact dictGet_insert_ne _ _ _ hk
  · intro j hj hne
    exact expandResult_getN_other g i s a hj hne
  · intro k hk
    rw [hself] at hk ⊢
    dsimp only at hk ⊢
    by_cases hka : k = a
    · subst hka
      intro hmem2
      exact ((List.Nodup.mem_erase_iff hnd).mp hmem2).1 rfl
    · rw [dictGet_insert_ne _ _ _ hka] at hk
      intro hmem2
      exact hdisj k hk (List.mem_of_mem_erase hmem2)

theorem c6_expand_postconditions_witness :
    ∃ t2, expand_leaf gStep t6 0 0 0 = some (t2, arLen t6, gStep.next_state 0 3) ∧
      arLen t2 = arLen t6 + 1 ∧
      (getN t2 (arLen t6)).parent = some 0 ∧
      (getN t2 (arLen t6)).parent_action = some 3 ∧
      (getN t2 (arLen t6)).untried_actions = gStep.legal_actions (gStep.next_state 0 3) ∧
      (getN t2 (arLen t6)).child_nodes = [] ∧
      (getN t2 0).untried_actions = (getN t6 0).untried_actions.erase 3 ∧
      (getN t2 0).untried_actions.length + 1 = (getN t6 0).untried_actions.length ∧
      dictGet (getN t2 0).child_nodes 3 = some (arLen t6) ∧
      (∀ k, k ≠ 3 → dictGet (getN t2 0).child_nodes k = dictGet (getN t6 0).child_nodes k) ∧
      (∀ j, j < arLen t6 → j ≠ 0 → getN t2 j = getN t6 j) ∧
      (∀ k, dictGet (getN t2 0).child_nodes k ≠ none →
        k ∉ (getN t2 0).untried_actions) :=
  c6_expand_postconditions gStep t6 0 0 0 3 (by decide) (by decide) (by decide)
    (by
      intro k hk
      by_cases h4 : (4 : Nat) = k
      · subst h4
        decide
      · simp [getN, t6, dictGet, h4] at hk)

/-- C7: after `N` completed search iterations starting from the fresh root,
the root's visit counter equals `N` (the root is reached by every
backpropagation pass) and the sum of the visit counters over the root's
direct children is at most `N`. -/
theorem c7_root_visits {σ α : Type} [DecidableEq α] (g : Game σ α) (sq lg : Score → Score)
    (botId : Nat) (s0 : σ) (R : Nat → Nat → Nat) (fuel N : Nat) (t : Arena α)
    (h : thinkLoop g sq lg botId s0 R fuel N [rootNode g s0] = some t) :
    (getN t 0).visits = N ∧ rootChildSum t ≤ N := by
  obtain ⟨_, _, h3, h4⟩ :=
    thinkLoop_all N [rootNode g s0] t (inv_init g s0) (childvisits_init g s0) h
  have hv : (getN [rootNode g s0] 0).visits = 0 := rfl
  have hs : rootChildSum [rootNode g s0] = 0 := rfl
  constructor
  · omega
  · omega

theorem c7_root_visits_witness :
    (getN cArena2 0).visits = 2 ∧ rootChildSum cArena2 ≤ 2 :=
  c7_root_visits gChain sId sId 1 0 (fun _ _ => 0) 5 2 cArena2 (by decide)

/-- C8: if after the iterations the root has acquired no children (as happens
when the initial state is terminal or has no legal actions), the final
selection step of `think` produces no action value: `max` over the empty
child sequence raises a `ValueError`, modelled as `none`. -/
theorem c8_no_children_fails {σ α : Type} [DecidableEq α] (g : Game σ α)
    (sq lg : Score → Score) (R : Nat → Nat → Nat) (fuel N : Nat) (s0 : σ) (t : Arena α)
    (h : thinkLoop g sq lg (g.current_player s0) s0 R fuel N [rootNode g s0] = some t)
    (hnoch : (getN t 0).child_nodes = []) :
    thinkWith g sq lg R fuel N s0 = none := by
  unfold thinkWith
  rw [h]
  dsimp only
  unfold get_best_action
  rw [hnoch]
  rfl

theorem c8_no_children_fails_witness :
    thinkWith gTerm sId sId (fun _ _ => 0) 3 1 0 = none :=
  c8_no_children_fails gTerm sId sId (fun _ _ => 0) 3 1 0 tArena1 (by decide) (by decide)

/-- C9: `is_win` on a state where the board's `points_values` yields no
outcome fails via its assertion (modelled as `none`), and on a state with an
outcome mapping it returns true exactly when the outcome score of the given
identity equals 1. -/
theorem c9_is_win_contract {σ α : Type} (g : Game σ α) (s : σ) (idb : Nat) :
    (g.points_values s = none → is_win g s idb = none) ∧
    (∀ f, g.points_values s = some f → ((is_win g s idb = some true) ↔ f idb = 1)) := by
  constructor
  · intro h
    unfold is_win
    rw [h]
  · intro f h
    unfold is_win
    rw [h]
    constructor
    · intro h1
      simp only [Option.some.injEq] at h1
      exact of_decide_eq_true h1
    · intro h1
      simp [h1]

theorem c9_is_win_contract_witness :
    is_win gOpen 0 1 = none ∧ is_win gTerm 0 1 = some true := by
  constructor
  · exact (c9_is_win_contract gOpen 0 1).1 rfl
  · exact ((c9_is_win_contract gTerm 0 1).2 (fun i => if i = 1 then 1 else 0) rfl).mpr
      (by decide)

/-- C10: after a completed run of `think`'s loop with at least one iteration,
every direct child of the root has been visited at least once (each node
created by an expansion is backpropagated through in the same iteration), so
the denominator of the win-rate division `wins / visits` that the final
selection performs over the root's children is nonzero. -/
theorem c10_no_division_by_zero {σ α : Type} [DecidableEq α] (g : Game σ α)
    (sq lg : Score → Score) (botId : Nat) (s0 : σ) (R : Nat → Nat → Nat)
    (fuel N : Nat) (t : Arena α) (_hN : 1 ≤ N)
    (h : thinkLoop g sq lg botId s0 R fuel N [rootNode g s0] = some t) :
    ∀ pr ∈ (getN t 0).child_nodes,
      1 ≤ (getN t pr.2).visits ∧
      (Score.div (Score.ofInt (getN t pr.2).wins)
        (Score.ofInt ((getN t pr.2).visits : Int))).den ≠ 0 := by
  obtain ⟨hInv, hCV, _, _⟩ :=
    thinkLoop_all N [rootNode g s0] t (inv_init g s0) (childvisits_init g s0) h
  intro pr hpr
  have h1 := hCV 0 (inv_len hInv) pr hpr
  refine ⟨h1, ?_⟩
  simp only [Score.div, Score.ofInt, one_mul]
  omega

theorem c10_no_division_by_zero_witness :
    1 ≤ (getN cArena2 (1, 1).2).visits ∧
    (Score.div (Score.ofInt (getN cArena2 (1, 1).2).wins)
      (Score.ofInt ((getN cArena2 (1, 1).2).visits : Int))).den ≠ 0 :=
  c10_no_division_by_zero gChain sId sId 1 0 (fun _ _ => 0) 5 2 cArena2 (by decide)
    (by decide) (1, 1) (by decide)

end MctsVanilla
